import Mathlib

/-
Verification of the time-series alignment and correlation engine of the
Currency-Dashboard repository (streamlit_app.py).

Embedding conventions:
- Timestamps are integer day numbers (Nat); the daily grid built by
  pd.date_range(lo, hi, freq='D') is the integer interval [lo, hi].
- Numeric values are exact rationals (ℚ).  Floating-point special values
  never reach a reported numeric cell in this program; a non-finite float
  (division of a change by a zero previous value) is modelled as an absent
  value.
- A pandas Series / one-column DataFrame is a list of (timestamp, value)
  pairs; an absent cell (NaN) is None.
- A Pearson coefficient r is represented exactly by the pair
  (sign of the scaled covariance, r squared): r = sign * sqrt sq, with
  sq = covN^2 / (varxN * varyN) a rational.  This encoding is injective on
  the coefficients the code can produce and avoids square roots.
- prepare_data models streamlit_app.py lines 48-64; compute_correlations
  models lines 65-93; appAlign adds the empty-primary guard of lines
  121-124 that runs before alignment in the application script.
-/

namespace CurrencyDashboard

/-- A time-indexed numeric series: (timestamp, value) pairs.  The repository
invariant is strictly increasing timestamps. -/
abbrev TimeSeries := List (Nat × ℚ)

/-- Strictly increasing timestamps, the TimeSeries invariant. -/
abbrev TSSorted (s : TimeSeries) : Prop :=
  List.Pairwise (fun a b : Nat × ℚ => a.1 < b.1) s

/-- df.index.min() of a non-empty series (0 for the empty series, which the
code never reaches because empty secondaries are skipped first). -/
def seriesMin (s : TimeSeries) : Nat :=
  match s with
  | [] => 0
  | p :: rest => rest.foldl (fun a q => min a q.1) p.1

/-- df.index.max(); used only on the (non-empty) primary series. -/
def seriesMax (s : TimeSeries) : Nat :=
  (s.map (·.1)).foldl max 0

/-- Exact-timestamp lookup, as performed by DataFrame.reindex for each grid
point. -/
def lookupExact (s : TimeSeries) (t : Nat) : Option ℚ :=
  (s.find? (fun p => p.1 == t)).map (·.2)

/-- df.reindex(pd.date_range(lo, hi, freq='D')): one row per day of [lo, hi],
holding the exact observation at that day if any. -/
def reindexDaily (s : TimeSeries) (lo hi : Nat) : List (Nat × Option ℚ) :=
  (List.range' lo (hi + 1 - lo)).map fun d => (d, lookupExact s d)

/-- DataFrame.ffill on a timestamp-keyed column: carry the last seen value
forward. -/
def ffillAux (last : Option ℚ) : List (Nat × Option ℚ) → List (Nat × Option ℚ)
  | [] => []
  | (t, v) :: rest =>
      match v with
      | some x => (t, some x) :: ffillAux (some x) rest
      | none => (t, last) :: ffillAux last rest

/-- DataFrame.ffill starting with no prior observation. -/
def ffillCol (col : List (Nat × Option ℚ)) : List (Nat × Option ℚ) :=
  ffillAux none col

/-- Value a left join assigns at timestamp t: the column value if t is in the
column's index, absent otherwise. -/
def colAt (col : List (Nat × Option ℚ)) (t : Nat) : Option ℚ :=
  match col.find? (fun p => p.1 == t) with
  | some p => p.2
  | none => none

/-- The daily forward-filled column built for one secondary series
(streamlit_app.py lines 60-61). -/
def secColumn (fx s : TimeSeries) : List (Nat × Option ℚ) :=
  ffillCol (reindexDaily s (seriesMin s) (seriesMax fx))

/-- The one exception prepare_data can propagate: pd.date_range raises when
its end point is NaT, i.e. when the primary index is empty while a non-empty
secondary is processed. -/
inductive PrepError
  | valueError
deriving DecidableEq

/-- The loop of prepare_data (lines 56-62): build one daily forward-filled
column per non-empty secondary, in order, skipping empty ones. -/
def buildCols (fx : TimeSeries) :
    List (String × TimeSeries) →
      Except PrepError (List (String × List (Nat × Option ℚ)))
  | [] => .ok []
  | (name, s) :: rest =>
      if s.isEmpty then buildCols fx rest
      else if fx.isEmpty then .error .valueError
      else
        match buildCols fx rest with
        | .ok cols => .ok ((name, secColumn fx s) :: cols)
        | .error e => .error e

/-- The merged table: names of the secondary columns, and rows
(timestamp, primary value, secondary values) ordered like the primary. -/
structure Table where
  secNames : List String
  rows : List (Nat × Option ℚ × List (Option ℚ))
deriving DecidableEq

/-- A row every field of which is absent (dropna(how='all') drops these). -/
def rowAllNone (r : Nat × Option ℚ × List (Option ℚ)) : Bool :=
  r.2.1.isNone && r.2.2.all (·.isNone)

/-- prepare_data (lines 48-64): start from the primary frame, left-join each
non-empty secondary forward-filled to the daily grid, then drop all-absent
rows. -/
def prepare_data (fx : TimeSeries) (secondaries : List (String × TimeSeries)) :
    Except PrepError Table :=
  match buildCols fx secondaries with
  | .error e => .error e
  | .ok cols =>
      let rows0 := fx.map fun p => (p.1, some p.2, cols.map fun c => colAt c.2 p.1)
      .ok ⟨cols.map (·.1), rows0.filter (fun r => !(rowAllNone r))⟩

/-- Errors of the application-level pipeline around prepare_data. -/
inductive AppError
  | noFxData
  | prepFailed (e : PrepError)
deriving DecidableEq

/-- The pipeline fragment of lines 121-130: stop with an error when the
fetched primary series is empty, otherwise align. -/
def appAlign (fx : TimeSeries) (secondaries : List (String × TimeSeries)) :
    Except AppError Table :=
  if fx.isEmpty then .error .noFxData
  else
    match prepare_data fx secondaries with
    | .ok t => .ok t
    | .error e => .error (.prepFailed e)

/- ---------------- CorrelationEngine ---------------- -/

/-- Forward fill of a bare value column (the fill pct_change performs before
differencing, fill_method pad). -/
def padFillAux (last : Option ℚ) : List (Option ℚ) → List (Option ℚ)
  | [] => []
  | v :: rest =>
      match v with
      | some x => some x :: padFillAux (some x) rest
      | none => last :: padFillAux last rest

/-- Forward fill starting from no prior value. -/
def padFill (xs : List (Option ℚ)) : List (Option ℚ) :=
  padFillAux none xs

/-- Series.pct_change(): forward-fill, then (cur - prev) / prev against the
previous filled row; the first row, and any row where either side is still
absent, is absent.  A zero previous value gives a non-finite float, modelled
as absent. -/
def pctChange (xs : List (Option ℚ)) : List (Option ℚ) :=
  let f := padFill xs
  (f.zip (none :: f)).map fun pc =>
    match pc.1, pc.2 with
    | some c, some p => if p = 0 then none else some ((c - p) / p)
    | _, _ => none

/-- The primary raw column of the merged table. -/
def primaryRaw (tbl : Table) : List (Option ℚ) :=
  tbl.rows.map (·.2.1)

/-- The j-th secondary raw column of the merged table. -/
def colRaw (tbl : Table) (j : Nat) : List (Option ℚ) :=
  tbl.rows.map fun r => (r.2.2.get? j).getD none

/-- df_returns (lines 72-81): the USDCHF_ret column followed by one _chg
column per secondary, each a pct_change of the raw column. -/
def returnsCols (tbl : Table) : List (String × List (Option ℚ)) :=
  ("USDCHF_ret", pctChange (primaryRaw tbl)) ::
    tbl.secNames.enum.map fun je => (je.2 ++ "_chg", pctChange (colRaw tbl je.1))

/-- Rows at which both series have a value; correlations are computed over
these pairs (pandas masks pairwise). -/
def bothSome (p : Option ℚ × Option ℚ) : Option (ℚ × ℚ) :=
  match p.1, p.2 with
  | some a, some b => some (a, b)
  | _, _ => none

/-- Jointly observed pairs of two columns. -/
def jointPairs (x y : List (Option ℚ)) : List (ℚ × ℚ) :=
  (x.zip y).filterMap bothSome

/-- n * sum(x*y) - sum(x) * sum(y): the covariance scaled by n^2, whose sign
and vanishing agree with the covariance. -/
def covN (ps : List (ℚ × ℚ)) : ℚ :=
  (ps.length : ℚ) * (ps.map fun p => p.1 * p.2).sum
    - (ps.map (·.1)).sum * (ps.map (·.2)).sum

/-- Scaled variance of the first components. -/
def varxN (ps : List (ℚ × ℚ)) : ℚ :=
  (ps.length : ℚ) * (ps.map fun p => p.1 * p.1).sum
    - (ps.map (·.1)).sum * (ps.map (·.1)).sum

/-- Scaled variance of the second components. -/
def varyN (ps : List (ℚ × ℚ)) : ℚ :=
  (ps.length : ℚ) * (ps.map fun p => p.2 * p.2).sum
    - (ps.map (·.2)).sum * (ps.map (·.2)).sum

/-- Exact encoding of a Pearson coefficient: the coefficient is
sign * sqrt sq.  On the diagonal it is ⟨1, 1⟩, i.e. exactly 1. -/
structure CorrVal where
  sign : Int
  sq : ℚ
deriving DecidableEq

/-- Pearson coefficient of a list of paired observations, mirroring the
pandas nancorr kernel: absent when there is no pair (min_periods) or when
either variance vanishes (zero divisor); otherwise
cov / sqrt(varx * vary), encoded exactly as (sign cov, r squared). -/
def pearson (ps : List (ℚ × ℚ)) : Option CorrVal :=
  if ps.isEmpty then none
  else if varxN ps = 0 ∨ varyN ps = 0 then none
  else
    some ⟨if 0 < covN ps then 1 else if covN ps < 0 then -1 else 0,
          covN ps * covN ps / (varxN ps * varyN ps)⟩

/-- Column lookup by name in df_returns. -/
def lookupCol (cols : List (String × List (Option ℚ))) (a : String) :
    Option (List (Option ℚ)) :=
  (cols.find? (fun c => c.1 == a)).map (·.2)

/-- df_returns.corr() (line 82): the pairwise-complete Pearson coefficient of
two named columns; absent when a name is not a column. -/
def corrMatrixOf (cols : List (String × List (Option ℚ))) (a b : String) :
    Option CorrVal :=
  match lookupCol cols a, lookupCol cols b with
  | some x, some y => pearson (jointPairs x y)
  | _, _ => none

/-- x.rolling(w).corr(y) (line 89): at each row, the Pearson coefficient over
the trailing w rows, absent unless all w rows in the window are jointly
observed (min_periods defaults to the window size). -/
def rollingCorrCol (w : Nat) (x y : List (Option ℚ)) : List (Option CorrVal) :=
  (List.range x.length).map fun i =>
    let win := ((x.zip y).take (i + 1)).drop (i + 1 - w)
    let joint := win.filterMap bothSome
    if joint.length < w then none else pearson joint

/-- Result of compute_correlations: the correlation matrix as an
entry-lookup function, plus the rolling-correlation columns. -/
structure CorrResult where
  matrix : String → String → Option CorrVal
  rolling : List (String × List (Option CorrVal))

/-- compute_correlations (lines 65-93).  A window of None or 0 is falsy in
the Python conditional, so no rolling table is built then. -/
def compute_correlations (tbl : Table) (window : Option Nat) : CorrResult :=
  let cols := returnsCols tbl
  let usdret := pctChange (primaryRaw tbl)
  { matrix := fun a b => corrMatrixOf cols a b
    rolling :=
      match window with
      | some w =>
          if w = 0 then []
          else
            (cols.filter (fun c => !(c.1 == "USDCHF_ret"))).map fun c =>
              (c.1, rollingCorrCol w usdret c.2)
      | none => [] }

/- ---------------- Specification-side definitions ---------------- -/

/-- Value of the most recent observation of s at or before t; none when no
observation is at or before t.  For a series with ascending timestamps the
scan keeps the latest qualifying observation. -/
def lastObsAt (s : TimeSeries) (t : Nat) : Option ℚ :=
  s.foldl (fun acc p => if p.1 ≤ t then some p.2 else acc) none

/-- Modelled from the spec wording of the change transform: change i is
(value i - value (i-1)) / value (i-1) when both raw values are present, and
absent otherwise (first row always absent).  Used to compare the code's
pct_change against the claim. -/
def specChange (xs : List (Option ℚ)) : List (Option ℚ) :=
  (xs.zip (none :: xs)).map fun pc =>
    match pc.1, pc.2 with
    | some c, some p => some ((c - p) / p)
    | _, _ => none

/-- Joint observations of two columns among the rows up to (and including)
row i. -/
def jointUpTo (x y : List (Option ℚ)) (i : Nat) : List (ℚ × ℚ) :=
  jointPairs (x.take (i + 1)) (y.take (i + 1))

/-- The w most recent elements of a list. -/
def lastW (w : Nat) (l : List (ℚ × ℚ)) : List (ℚ × ℚ) :=
  l.drop (l.length - w)

/-- All elements of the list are equal (a constant change series). -/
abbrev allEqual (l : List ℚ) : Prop :=
  ∀ a ∈ l, ∀ b ∈ l, a = b

/-- n * sum of squares minus square of sum; nonnegative, zero exactly on
constant lists. -/
def sqSumN (l : List ℚ) : ℚ :=
  (l.length : ℚ) * (l.map fun v => v * v).sum - l.sum * l.sum

/- ---------------- Helper lemmas ---------------- -/

theorem prepare_data_ok_elim {fx : TimeSeries} {ms : List (String × TimeSeries)}
    {tbl : Table} (h : prepare_data fx ms = .ok tbl) :
    ∃ cols, buildCols fx ms = .ok cols ∧
      tbl = ⟨cols.map (·.1),
        (fx.map fun p => (p.1, some p.2, cols.map fun c => colAt c.2 p.1)).filter
          (fun r => !(rowAllNone r))⟩ := by
  unfold prepare_data at h
  cases hb : buildCols fx ms with
  | error e => rw [hb] at h; exact absurd h (by simp)
  | ok cols =>
      rw [hb] at h
      simp only [Except.ok.injEq] at h
      exact ⟨cols, rfl, h.symm⟩

theorem lookupExact_of_sorted {fx : TimeSeries} (hs : TSSorted fx)
    {p : Nat × ℚ} (hp : p ∈ fx) : lookupExact fx p.1 = some p.2 := by
  induction fx with
  | nil => cases hp
  | cons q rest ih =>
      rcases List.pairwise_cons.mp hs with ⟨hq, hrest⟩
      rcases List.mem_cons.mp hp with h | h
      · subst h
        simp [lookupExact, List.find?]
      · have hlt : q.1 < p.1 := hq p h
        have hne : (q.1 == p.1) = false := by
          simp [Nat.ne_of_lt hlt]
        simp only [lookupExact, List.find?, hne]
        exact ih hrest h

theorem buildCols_filter (fx : TimeSeries) (ms : List (String × TimeSeries)) :
    buildCols fx ms = buildCols fx (ms.filter fun m => !m.2.isEmpty) := by
  induction ms with
  | nil => rfl
  | cons m rest ih =>
      obtain ⟨n, s⟩ := m
      by_cases hs : s.isEmpty
      · simp [buildCols, hs, List.filter, ih]
      · simp only [List.filter, hs, Bool.not_false]
        simp [buildCols, hs, ih]

theorem buildCols_names {fx : TimeSeries} {ms : List (String × TimeSeries)}
    {cols : List (String × List (Nat × Option ℚ))}
    (h : buildCols fx ms = .ok cols) :
    cols.map (·.1) = (ms.filter fun m => !m.2.isEmpty).map (·.1) := by
  induction ms generalizing cols with
  | nil =>
      simp only [buildCols, Except.ok.injEq] at h
      subst h; rfl
  | cons m rest ih =>
      obtain ⟨n, s⟩ := m
      by_cases hs : s.isEmpty
      · simp only [buildCols, hs, if_true] at h
        simp [List.filter, hs, ih h]
      · simp only [buildCols, hs, if_false, Bool.false_eq_true] at h
        by_cases hfx : fx.isEmpty
        · rw [if_pos hfx] at h; exact absurd h (by simp)
        · rw [if_neg hfx] at h
          cases hb : buildCols fx rest with
          | error e => rw [hb] at h; exact absurd h (by simp)
          | ok cols0 =>
              rw [hb] at h
              simp only [Except.ok.injEq] at h
              subst h
              simp [List.filter, hs, ih hb]

/- ---------------- Claim C2 ---------------- -/

/-- C2: for every non-empty primary series, the timestamps of the aligned
table are a subsequence of the primary's timestamps, and every row of the
aligned table has a non-absent primary value. -/
theorem alignment_result_guarantee (fx : TimeSeries)
    (ms : List (String × TimeSeries)) (tbl : Table)
    (_hne : fx ≠ []) (h : prepare_data fx ms = .ok tbl) :
    List.Sublist (tbl.rows.map (·.1)) (fx.map (·.1)) ∧
      ∀ r ∈ tbl.rows, r.2.1.isSome := by
  obtain ⟨cols, _, htbl⟩ := prepare_data_ok_elim h
  subst htbl
  constructor
  · have h1 : List.Sublist
        ((fx.map fun p => (p.1, some p.2, cols.map fun c => colAt c.2 p.1)).filter
          (fun r => !(rowAllNone r)))
        (fx.map fun p => (p.1, some p.2, cols.map fun c => colAt c.2 p.1)) :=
      List.filter_sublist _
    have h2 := h1.map (fun r : Nat × Option ℚ × List (Option ℚ) => r.1)
    simpa [List.map_map, Function.comp] using h2
  · intro r hr
    have hr0 := List.mem_of_mem_filter hr
    rcases List.mem_map.mp hr0 with ⟨p, _, hp⟩
    subst hp
    rfl

/-- Witness for C2 at a concrete one-row primary and no secondaries. -/
theorem alignment_result_guarantee_witness :
    prepare_data [((0 : Nat), (1 : ℚ))] [] =
        .ok ⟨[], [((0 : Nat), some (1 : ℚ), ([] : List (Option ℚ)))]⟩ ∧
      (List.Sublist
          ((Table.mk [] [((0 : Nat), some (1 : ℚ), ([] : List (Option ℚ)))]).rows.map (·.1))
          (([((0 : Nat), (1 : ℚ))] : TimeSeries).map (·.1)) ∧
        ∀ r ∈ (Table.mk [] [((0 : Nat), some (1 : ℚ), ([] : List (Option ℚ)))]).rows,
          r.2.1.isSome) :=
  ⟨by rfl,
    alignment_result_guarantee [((0 : Nat), (1 : ℚ))] []
      ⟨[], [((0 : Nat), some (1 : ℚ), [])]⟩ (by decide) (by rfl)⟩

/- ---------------- Claim C10 ---------------- -/

/-- C10: alignment leaves the primary column unmodified: every retained row
carries exactly the input primary value at its timestamp. -/
theorem alignment_preserves_primary (fx : TimeSeries)
    (ms : List (String × TimeSeries)) (tbl : Table)
    (hs : TSSorted fx) (h : prepare_data fx ms = .ok tbl) :
    ∀ r ∈ tbl.rows, r.2.1 = lookupExact fx r.1 := by
  obtain ⟨cols, _, htbl⟩ := prepare_data_ok_elim h
  subst htbl
  intro r hr
  have hr0 := List.mem_of_mem_filter hr
  rcases List.mem_map.mp hr0 with ⟨p, hp, hpr⟩
  subst hpr
  exact (lookupExact_of_sorted hs hp).symm

/-- Witness for C10 at a concrete two-row primary. -/
theorem alignment_preserves_primary_witness :
    TSSorted [((0 : Nat), (1 : ℚ)), ((2 : Nat), (5 : ℚ))] ∧
      prepare_data [((0 : Nat), (1 : ℚ)), ((2 : Nat), (5 : ℚ))] [] =
        .ok ⟨[], [((0 : Nat), some (1 : ℚ), ([] : List (Option ℚ))),
                  ((2 : Nat), some (5 : ℚ), ([] : List (Option ℚ)))]⟩ ∧
      ∀ r ∈ (Table.mk []
          [((0 : Nat), some (1 : ℚ), ([] : List (Option ℚ))),
           ((2 : Nat), some (5 : ℚ), ([] : List (Option ℚ)))]).rows,
        r.2.1 = lookupExact [((0 : Nat), (1 : ℚ)), ((2 : Nat), (5 : ℚ))] r.1 :=
  ⟨by decide, by rfl,
    alignment_preserves_primary [((0 : Nat), (1 : ℚ)), ((2 : Nat), (5 : ℚ))] []
      ⟨[], [((0 : Nat), some (1 : ℚ), []), ((2 : Nat), some (5 : ℚ), [])]⟩
      (by decide) (by rfl)⟩

/- ---------------- Claim C9 ---------------- -/

/-- C9: an empty (failed-fetch) secondary series is excluded from the aligned
table and never alters the result: alignment of the full list coincides with
alignment of the list with empty secondaries removed, and the output columns
are exactly the non-empty secondaries, in order. -/
theorem secondary_failure_absorption (fx : TimeSeries)
    (ms : List (String × TimeSeries)) :
    prepare_data fx ms = prepare_data fx (ms.filter fun m => !m.2.isEmpty) ∧
      ∀ tbl : Table, prepare_data fx ms = .ok tbl →
        tbl.secNames = (ms.filter fun m => !m.2.isEmpty).map (·.1) := by
  constructor
  · unfold prepare_data
    rw [buildCols_filter fx ms]
  · intro tbl h
    obtain ⟨cols, hb, htbl⟩ := prepare_data_ok_elim h
    subst htbl
    exact buildCols_names hb

/-- Witness for C9: an empty secondary A is dropped, a non-empty secondary B
is kept. -/
theorem secondary_failure_absorption_witness :
    (prepare_data [((0 : Nat), (1 : ℚ))] [("A", []), ("B", [((0 : Nat), (2 : ℚ))])] =
        prepare_data [((0 : Nat), (1 : ℚ))]
          (([("A", []), ("B", [((0 : Nat), (2 : ℚ))])].filter fun m => !m.2.isEmpty))) ∧
      prepare_data [((0 : Nat), (1 : ℚ))] [("A", []), ("B", [((0 : Nat), (2 : ℚ))])] =
        .ok ⟨["B"], [((0 : Nat), some (1 : ℚ), [some (2 : ℚ)])]⟩ ∧
      (Table.mk ["B"] [((0 : Nat), some (1 : ℚ), [some (2 : ℚ)])]).secNames =
        (([("A", ([] : TimeSeries)), ("B", [((0 : Nat), (2 : ℚ))])].filter
            fun m => !m.2.isEmpty).map (·.1)) :=
  ⟨(secondary_failure_absorption [((0 : Nat), (1 : ℚ))]
      [("A", []), ("B", [((0 : Nat), (2 : ℚ))])]).1,
    by rfl,
    (secondary_failure_absorption [((0 : Nat), (1 : ℚ))]
        [("A", []), ("B", [((0 : Nat), (2 : ℚ))])]).2
      ⟨["B"], [((0 : Nat), some (1 : ℚ), [some (2 : ℚ)])]⟩ (by rfl)⟩

/- ---------------- Claim C7 ---------------- -/

/-- C7 counterexample: alignment applied to an empty primary series with no
secondaries does not fail at all; it returns an (empty) table.  There is no
EmptyPrimarySeries failure inside the alignment routine. -/
theorem empty_primary_counterexample :
    prepare_data ([] : TimeSeries) [] = .ok ⟨[], []⟩ := by
  rfl

/-- C7 amended: the application checks the primary for emptiness before
alignment and stops with an explicit error (lines 121-124); prepare_data
itself returns an empty table on an empty primary with no (or only empty)
secondaries, and fails with a generic date-range error, not a dedicated
empty-primary error, when a non-empty secondary is present. -/
theorem empty_primary_amended (ms : List (String × TimeSeries)) (n : String)
    (s : TimeSeries) :
    appAlign [] ms = .error .noFxData ∧
      prepare_data ([] : TimeSeries) [] = .ok ⟨[], []⟩ ∧
      (s ≠ [] → prepare_data [] [(n, s)] = .error .valueError) := by
  refine ⟨rfl, by rfl, ?_⟩
  intro hs
  cases s with
  | nil => exact absurd rfl hs
  | cons p rest => rfl

/-- Witness for C7 amended at a concrete non-empty secondary. -/
theorem empty_primary_amended_witness :
    appAlign [] [("M", [((0 : Nat), (1 : ℚ))])] = .error .noFxData ∧
      prepare_data ([] : TimeSeries) [] = .ok ⟨[], []⟩ ∧
      prepare_data [] [("M", [((0 : Nat), (1 : ℚ))])] = .error .valueError := by
  have h := empty_primary_amended [("M", [((0 : Nat), (1 : ℚ))])] "M"
    [((0 : Nat), (1 : ℚ))]
  exact ⟨h.1, h.2.1, h.2.2 (by decide)⟩

/- ---------------- More helper lemmas ---------------- -/

theorem zip_get?_eq {α β : Type} (l1 : List α) (l2 : List β) (i : Nat) :
    (l1.zip l2).get? i =
      match l1.get? i, l2.get? i with
      | some a, some b => some (a, b)
      | _, _ => none := by
  induction l1 generalizing l2 i with
  | nil => simp [List.zip]
  | cons a t ih =>
      cases l2 with
      | nil => cases i <;> simp [List.zip]
      | cons b t2 =>
          cases i with
          | zero => rfl
          | succ j => simpa using ih t2 j

theorem varxN_singleton (p : ℚ × ℚ) : varxN [p] = 0 := by
  simp [varxN]

theorem pearson_of_short (ps : List (ℚ × ℚ)) (h : ps.length < 2) :
    pearson ps = none := by
  match ps, h with
  | [], _ => rfl
  | [p], _ =>
      unfold pearson
      rw [if_neg (by simp), if_pos (Or.inl (varxN_singleton p))]

theorem mem_jointPairs_fst {x y : List (Option ℚ)} {p : ℚ × ℚ}
    (hp : p ∈ jointPairs x y) : some p.1 ∈ x := by
  rcases List.mem_filterMap.mp hp with ⟨q, hq, hbq⟩
  obtain ⟨q1, q2⟩ := q
  have hq1 : q1 = some p.1 := by
    cases q1 with
    | none => simp [bothSome] at hbq
    | some a =>
        cases q2 with
        | none => simp [bothSome] at hbq
        | some b =>
            simp [bothSome] at hbq
            subst hbq
            rfl
  exact hq1 ▸ (List.of_mem_zip hq).1

theorem mem_jointPairs_snd {x y : List (Option ℚ)} {p : ℚ × ℚ}
    (hp : p ∈ jointPairs x y) : some p.2 ∈ y := by
  rcases List.mem_filterMap.mp hp with ⟨q, hq, hbq⟩
  obtain ⟨q1, q2⟩ := q
  have hq2 : q2 = some p.2 := by
    cases q1 with
    | none => simp [bothSome] at hbq
    | some a =>
        cases q2 with
        | none => simp [bothSome] at hbq
        | some b =>
            simp [bothSome] at hbq
            subst hbq
            rfl
  exact hq2 ▸ (List.of_mem_zip hq).2

theorem sum_of_all_eq {l : List ℚ} {c : ℚ} (h : ∀ v ∈ l, v = c) :
    l.sum = (l.length : ℚ) * c := by
  induction l with
  | nil => simp
  | cons a t ih =>
      have ha : a = c := h a (List.mem_cons_self a t)
      have ht : t.sum = (t.length : ℚ) * c := ih fun v hv => h v (List.mem_cons_of_mem a hv)
      simp [ha, ht]
      ring

theorem varxN_of_const_fst {ps : List (ℚ × ℚ)} {c : ℚ}
    (h : ∀ p ∈ ps, p.1 = c) : varxN ps = 0 := by
  have h1 : (ps.map (·.1)).sum = (ps.length : ℚ) * c := by
    rw [sum_of_all_eq (l := ps.map (·.1)) (c := c)]
    · simp
    · intro v hv
      rcases List.mem_map.mp hv with ⟨p, hp, hpv⟩
      exact hpv ▸ h p hp
  have h2 : (ps.map fun p => p.1 * p.1).sum = (ps.length : ℚ) * (c * c) := by
    rw [sum_of_all_eq (l := ps.map fun p => p.1 * p.1) (c := c * c)]
    · simp
    · intro v hv
      rcases List.mem_map.mp hv with ⟨p, hp, hpv⟩
      rw [← hpv, h p hp]
  unfold varxN
  rw [h1, h2]
  ring

theorem varyN_of_const_snd {ps : List (ℚ × ℚ)} {c : ℚ}
    (h : ∀ p ∈ ps, p.2 = c) : varyN ps = 0 := by
  have h1 : (ps.map (·.2)).sum = (ps.length : ℚ) * c := by
    rw [sum_of_all_eq (l := ps.map (·.2)) (c := c)]
    · simp
    · intro v hv
      rcases List.mem_map.mp hv with ⟨p, hp, hpv⟩
      exact hpv ▸ h p hp
  have h2 : (ps.map fun p => p.2 * p.2).sum = (ps.length : ℚ) * (c * c) := by
    rw [sum_of_all_eq (l := ps.map fun p => p.2 * p.2) (c := c * c)]
    · simp
    · intro v hv
      rcases List.mem_map.mp hv with ⟨p, hp, hpv⟩
      rw [← hpv, h p hp]
  unfold varyN
  rw [h1, h2]
  ring

theorem pearson_none_of_varxN_zero {ps : List (ℚ × ℚ)} (h : varxN ps = 0) :
    pearson ps = none := by
  unfold pearson
  rcases Decidable.em (ps.isEmpty = true) with he | he
  · rw [if_pos he]
  · rw [if_neg he, if_pos (Or.inl h)]

theorem pearson_none_of_varyN_zero {ps : List (ℚ × ℚ)} (h : varyN ps = 0) :
    pearson ps = none := by
  unfold pearson
  rcases Decidable.em (ps.isEmpty = true) with he | he
  · rw [if_pos he]
  · rw [if_neg he, if_pos (Or.inr h)]

theorem compute_matrix_eq (tbl : Table) (w : Option Nat) :
    (compute_correlations tbl w).matrix =
      fun a b => corrMatrixOf (returnsCols tbl) a b := rfl

theorem compute_rolling_none_eq (tbl : Table) :
    (compute_correlations tbl none).rolling = [] := rfl

theorem compute_rolling_some_eq (tbl : Table) (w : Nat) :
    (compute_correlations tbl (some w)).rolling =
      if w = 0 then []
      else
        ((returnsCols tbl).filter (fun c => !(c.1 == "USDCHF_ret"))).map fun c =>
          (c.1, rollingCorrCol w (pctChange (primaryRaw tbl)) c.2) := rfl

theorem returnsCols_zero_rows {names : List String}
    {c : String × List (Option ℚ)} (hc : c ∈ returnsCols ⟨names, []⟩) :
    c.2 = [] := by
  rcases List.mem_cons.mp hc with h | h
  · subst h; rfl
  · rcases List.mem_map.mp h with ⟨je, _, hje⟩
    subst hje
    rfl

/- ---------------- Claim C3 ---------------- -/

/-- C3 counterexample: the correlation operation applied to a table with zero
rows does not fail; it returns a result whose matrix entries are absent and
whose rolling columns are empty. -/
theorem correlate_empty_counterexample :
    (compute_correlations ⟨["M"], []⟩ (some 3)).matrix "USDCHF_ret" "M_chg" =
        none ∧
      (compute_correlations ⟨["M"], []⟩ (some 3)).rolling = [("M_chg", [])] :=
  ⟨rfl, rfl⟩

/-- C3 amended: compute_correlations never fails, for zero-row tables
included: on a zero-row table every matrix entry is absent and every rolling
column is empty, and a pair list with fewer than 2 joint observations always
yields an absent coefficient (insufficient data degrades to absent values,
not to an error). -/
theorem correlate_total_amended (names : List String) (w : Option Nat)
    (a b : String) :
    (compute_correlations ⟨names, []⟩ w).matrix a b = none ∧
      (∀ e ∈ (compute_correlations ⟨names, []⟩ w).rolling, e.2 = []) ∧
      ∀ ps : List (ℚ × ℚ), ps.length < 2 → pearson ps = none := by
  refine ⟨?_, ?_, fun ps h => pearson_of_short ps h⟩
  · show corrMatrixOf (returnsCols ⟨names, []⟩) a b = none
    unfold corrMatrixOf
    cases hxa : lookupCol (returnsCols ⟨names, []⟩) a with
    | none => rfl
    | some x =>
        cases hyb : lookupCol (returnsCols ⟨names, []⟩) b with
        | none => rfl
        | some y =>
            have hx0 : x = [] := by
              unfold lookupCol at hxa
              rcases Option.map_eq_some'.mp hxa with ⟨c, hfind, hcx⟩
              rw [← hcx]
              exact returnsCols_zero_rows (List.mem_of_find?_eq_some hfind)
            subst hx0
            rfl
  · intro e he
    cases w with
    | none => rw [compute_rolling_none_eq] at he; cases he
    | some w0 =>
        rw [compute_rolling_some_eq] at he
        by_cases hw : w0 = 0
        · rw [if_pos hw] at he; cases he
        · rw [if_neg hw] at he
          rcases List.mem_map.mp he with ⟨c, _, hce⟩
          subst hce
          show rollingCorrCol w0 (pctChange (primaryRaw ⟨names, []⟩)) c.2 = []
          rfl

/-- Witness for C3 amended at a concrete zero-row table. -/
theorem correlate_total_amended_witness :
    (compute_correlations ⟨["M"], []⟩ (some 2)).matrix "USDCHF_ret"
        "USDCHF_ret" = none ∧
      (([((3 : ℚ), (4 : ℚ))] : List (ℚ × ℚ)).length < 2 ∧
        pearson [((3 : ℚ), (4 : ℚ))] = none) := by
  have h := correlate_total_amended ["M"] (some 2) "USDCHF_ret" "USDCHF_ret"
  exact ⟨h.1, by decide, h.2.2 [((3 : ℚ), (4 : ℚ))] (by decide)⟩

/- ---------------- Claim C4 ---------------- -/

/-- C4: a field whose change series is constant (zero variance) has an
absent correlation with every field, in both orders, including itself; no
numeric value is ever reported for such a pair. -/
theorem zero_variance_absent (tbl : Table) (w : Option Nat) (a : String)
    (x : List (Option ℚ)) (hx : lookupCol (returnsCols tbl) a = some x)
    (hc : allEqual (x.filterMap id)) (b : String) :
    (compute_correlations tbl w).matrix a b = none ∧
      (compute_correlations tbl w).matrix b a = none := by
  have hmem : ∀ q : ℚ × ℚ, ∀ y, q ∈ jointPairs x y → q.1 ∈ x.filterMap id := by
    intro q y hq
    exact List.mem_filterMap.mpr ⟨some q.1, mem_jointPairs_fst hq, rfl⟩
  have hmem2 : ∀ q : ℚ × ℚ, ∀ y, q ∈ jointPairs y x → q.2 ∈ x.filterMap id := by
    intro q y hq
    exact List.mem_filterMap.mpr ⟨some q.2, mem_jointPairs_snd hq, rfl⟩
  constructor
  · show corrMatrixOf (returnsCols tbl) a b = none
    unfold corrMatrixOf
    rw [hx]
    cases hyb : lookupCol (returnsCols tbl) b with
    | none => rfl
    | some y =>
        show pearson (jointPairs x y) = none
        cases hps : jointPairs x y with
        | nil => rfl
        | cons p rest =>
            apply pearson_none_of_varxN_zero
            apply varxN_of_const_fst (c := p.1)
            intro q hq
            have hpj : p ∈ jointPairs x y := by
              rw [hps]; exact List.mem_cons_self p rest
            have hqj : q ∈ jointPairs x y := by
              rw [hps]; exact hq
            exact hc q.1 (hmem q y hqj) p.1 (hmem p y hpj)
  · show corrMatrixOf (returnsCols tbl) b a = none
    unfold corrMatrixOf
    cases hyb : lookupCol (returnsCols tbl) b with
    | none => rfl
    | some y =>
        rw [hx]
        show pearson (jointPairs y x) = none
        cases hps : jointPairs y x with
        | nil => rfl
        | cons p rest =>
            apply pearson_none_of_varyN_zero
            apply varyN_of_const_snd (c := p.2)
            intro q hq
            have hpj : p ∈ jointPairs y x := by
              rw [hps]; exact List.mem_cons_self p rest
            have hqj : q ∈ jointPairs y x := by
              rw [hps]; exact hq
            exact hc q.2 (hmem2 q y hqj) p.2 (hmem2 p y hpj)

/-- Witness for C4: a table whose primary values grow geometrically has a
constant returns series, and its correlation with itself is absent. -/
theorem zero_variance_absent_witness :
    lookupCol
        (returnsCols ⟨[], [((0 : Nat), some (1 : ℚ), []),
          ((1 : Nat), some (2 : ℚ), []), ((2 : Nat), some (4 : ℚ), [])]⟩)
        "USDCHF_ret" =
        some (pctChange [some (1 : ℚ), some 2, some 4]) ∧
      allEqual ((pctChange [some (1 : ℚ), some 2, some 4]).filterMap id) ∧
      (compute_correlations
          ⟨[], [((0 : Nat), some (1 : ℚ), []), ((1 : Nat), some (2 : ℚ), []),
            ((2 : Nat), some (4 : ℚ), [])]⟩ none).matrix
          "USDCHF_ret" "USDCHF_ret" = none := by
  have hev : pctChange [some (1 : ℚ), some 2, some 4] =
      [none, some 1, some 1] := by
    norm_num [pctChange, padFill, padFillAux]
  have hc : allEqual ((pctChange [some (1 : ℚ), some 2, some 4]).filterMap id) := by
    rw [hev]; decide
  exact ⟨rfl, hc,
    (zero_variance_absent
        ⟨[], [((0 : Nat), some (1 : ℚ), []), ((1 : Nat), some (2 : ℚ), []),
          ((2 : Nat), some (4 : ℚ), [])]⟩ none "USDCHF_ret"
        (pctChange [some (1 : ℚ), some 2, some 4]) rfl hc "USDCHF_ret").1⟩

/- ---------------- Claim C6 ---------------- -/

theorem padFillAux_get?_some (xs : List (Option ℚ)) (i : Nat) (v : ℚ)
    (init : Option ℚ) (h : xs.get? i = some (some v)) :
    (padFillAux init xs).get? i = some (some v) := by
  induction xs generalizing i init with
  | nil => cases i <;> cases h
  | cons x t ih =>
      cases i with
      | zero =>
          simp only [List.get?_cons_zero, Option.some.injEq] at h
          subst h
          rfl
      | succ j =>
          simp only [List.get?_cons_succ] at h
          cases x with
          | some u => simpa [padFillAux] using ih j (some u) h
          | none => simpa [padFillAux] using ih j init h

theorem padFillAux_all_none (xs : List (Option ℚ))
    (h : ∀ v ∈ xs, v = none) :
    ∀ v ∈ padFillAux none xs, v = none := by
  induction xs with
  | nil => intro v hv; cases hv
  | cons x t ih =>
      have hx : x = none := h x (List.mem_cons_self x t)
      subst hx
      intro v hv
      simp only [padFillAux] at hv
      rcases List.mem_cons.mp hv with h0 | h0
      · exact h0
      · exact ih (fun u hu => h u (List.mem_cons_of_mem none hu)) v h0

/-- C6 counterexample: pct_change forward-fills before differencing.  On the
raw column [1, absent, 2] the code yields a change of 0 at the absent row and
a change of 1 at the last row, while the claim's formula gives an absent
change at both; and a column with a single present value still produces a
change value (0), where the claim says such a field contributes no change
series. -/
theorem change_transform_counterexample :
    lookupCol
        (returnsCols ⟨["M"], [((0 : Nat), some (1 : ℚ), [some (1 : ℚ)]),
          ((1 : Nat), some (3 : ℚ), [none]),
          ((2 : Nat), some (2 : ℚ), [some (2 : ℚ)])]⟩) "M_chg" =
        some (pctChange [some (1 : ℚ), none, some 2]) ∧
      pctChange [some (1 : ℚ), none, some 2] = [none, some 0, some 1] ∧
      specChange [some (1 : ℚ), none, some 2] = [none, none, none] ∧
      pctChange [none, some (5 : ℚ), none] = [none, none, some 0] := by
  refine ⟨rfl, ?_, rfl, ?_⟩
  · norm_num [pctChange, padFill, padFillAux]
  · norm_num [pctChange, padFill, padFillAux]

/-- C6 amended: the change series is computed on the forward-filled column:
the first row is always absent; whenever consecutive raw values v[i], v[i+1]
are both present and v[i] is nonzero, change[i+1] = (v[i+1] - v[i]) / v[i]
as the claim states; but gaps are filled from the most recent present value
before differencing, and only a field with no present value at all is
guaranteed an all-absent change series. -/
theorem change_transform_amended (xs : List (Option ℚ)) :
    (xs ≠ [] → (pctChange xs).get? 0 = some none) ∧
      (∀ (i : Nat) (vp vc : ℚ), xs.get? i = some (some vp) →
        xs.get? (i + 1) = some (some vc) → vp ≠ 0 →
        (pctChange xs).get? (i + 1) = some (some ((vc - vp) / vp))) ∧
      ((∀ v ∈ xs, v = none) → ∀ c ∈ pctChange xs, c = none) := by
  refine ⟨?_, ?_, ?_⟩
  · intro hne
    cases xs with
    | nil => exact absurd rfl hne
    | cons x t => cases x <;> rfl
  · intro i vp vc hp hc hvp
    have hf1 : (padFill xs).get? i = some (some vp) :=
      padFillAux_get?_some xs i vp none hp
    have hf2 : (padFill xs).get? (i + 1) = some (some vc) :=
      padFillAux_get?_some xs (i + 1) vc none hc
    show (((padFill xs).zip (none :: padFill xs)).map fun pc =>
        match pc.1, pc.2 with
        | some c, some p => if p = 0 then none else some ((c - p) / p)
        | _, _ => none).get? (i + 1) = some (some ((vc - vp) / vp))
    rw [List.get?_map, zip_get?_eq, List.get?_cons_succ, hf1, hf2]
    simp [if_neg hvp]
  · intro hall c hcmem
    have hfnone := padFillAux_all_none xs hall
    rcases List.mem_map.mp hcmem with ⟨p, hpmem, hpc⟩
    obtain ⟨p1, p2⟩ := p
    have hp1 : p1 ∈ padFill xs := (List.of_mem_zip hpmem).1
    have hp1n : p1 = none := hfnone p1 hp1
    subst hp1n
    exact hpc.symm

/-- Witness for C6 amended on a concrete gap-free column. -/
theorem change_transform_amended_witness :
    ([some (2 : ℚ), some 3] ≠ ([] : List (Option ℚ))) ∧
      (pctChange [some (2 : ℚ), some 3]).get? 0 = some none ∧
      ((2 : ℚ) ≠ 0) ∧
      (pctChange [some (2 : ℚ), some 3]).get? 1 =
        some (some (((3 : ℚ) - 2) / 2)) :=
  ⟨by decide,
    (change_transform_amended [some (2 : ℚ), some 3]).1 (by decide),
    by decide,
    (change_transform_amended [some (2 : ℚ), some 3]).2.1 0 2 3 rfl rfl
      (by decide)⟩

/- ---------------- sqSumN theory (variance of a list) ---------------- -/

theorem sumSqDev_eq (l : List ℚ) (a : ℚ) :
    (l.map fun v => (v - a) * (v - a)).sum =
      (l.map fun v => v * v).sum - 2 * a * l.sum + (l.length : ℚ) * (a * a) := by
  induction l with
  | nil => simp
  | cons x t ih =>
      simp only [List.map_cons, List.sum_cons, ih, List.length_cons]
      push_cast
      ring

theorem sqSumN_cons (a : ℚ) (l : List ℚ) :
    sqSumN (a :: l) = sqSumN l + (l.map fun v => (v - a) * (v - a)).sum := by
  unfold sqSumN
  rw [sumSqDev_eq]
  simp only [List.map_cons, List.sum_cons, List.length_cons]
  push_cast
  ring

theorem sumSqDev_nonneg (l : List ℚ) (a : ℚ) :
    0 ≤ (l.map fun v => (v - a) * (v - a)).sum := by
  induction l with
  | nil => simp
  | cons x t ih =>
      simp only [List.map_cons, List.sum_cons]
      exact add_nonneg (mul_self_nonneg _) ih

theorem sqSumN_nonneg (l : List ℚ) : 0 ≤ sqSumN l := by
  induction l with
  | nil => simp [sqSumN]
  | cons a t ih =>
      rw [sqSumN_cons]
      exact add_nonneg ih (sumSqDev_nonneg t a)

theorem sqSumN_of_const {l : List ℚ} {c : ℚ} (h : ∀ v ∈ l, v = c) :
    sqSumN l = 0 := by
  have h1 : l.sum = (l.length : ℚ) * c := sum_of_all_eq h
  have h2 : (l.map fun v => v * v).sum = (l.length : ℚ) * (c * c) := by
    rw [sum_of_all_eq (l := l.map fun v => v * v) (c := c * c)]
    · simp
    · intro v hv
      rcases List.mem_map.mp hv with ⟨u, hu, huv⟩
      rw [← huv, h u hu]
  unfold sqSumN
  rw [h1, h2]
  ring

theorem sumSqDev_single_le {l : List ℚ} {v : ℚ} (a : ℚ) (hv : v ∈ l) :
    (v - a) * (v - a) ≤ (l.map fun u => (u - a) * (u - a)).sum := by
  induction l with
  | nil => cases hv
  | cons x t ih =>
      simp only [List.map_cons, List.sum_cons]
      rcases List.mem_cons.mp hv with h0 | h0
      · subst h0
        exact le_add_of_nonneg_right (sumSqDev_nonneg t a)
      · calc (v - a) * (v - a) ≤ (t.map fun u => (u - a) * (u - a)).sum := ih h0
          _ ≤ _ := le_add_of_nonneg_left (mul_self_nonneg _)

theorem sqSumN_pos {l : List ℚ} {a b : ℚ} (ha : a ∈ l) (hb : b ∈ l)
    (hne : a ≠ b) : 0 < sqSumN l := by
  induction l with
  | nil => cases ha
  | cons x t ih =>
      rw [sqSumN_cons]
      rcases List.mem_cons.mp ha with ha0 | ha0 <;>
        rcases List.mem_cons.mp hb with hb0 | hb0
      · exact absurd (ha0.trans hb0.symm) hne
      · subst ha0
        have hpos : 0 < (b - a) * (b - a) :=
          mul_self_pos.mpr (sub_ne_zero_of_ne fun h => hne h.symm)
        have hle := sumSqDev_single_le a hb0
        exact add_pos_of_nonneg_of_pos (sqSumN_nonneg t) (lt_of_lt_of_le hpos hle)
      · subst hb0
        have hpos : 0 < (a - b) * (a - b) :=
          mul_self_pos.mpr (sub_ne_zero_of_ne hne)
        have hle := sumSqDev_single_le b ha0
        exact add_pos_of_nonneg_of_pos (sqSumN_nonneg t) (lt_of_lt_of_le hpos hle)
      · exact add_pos_of_pos_of_nonneg (ih ha0 hb0) (sumSqDev_nonneg t x)

/- ---------------- Diagonal and swapped pair lists ---------------- -/

theorem jointPairs_self (x : List (Option ℚ)) :
    jointPairs x x = (x.filterMap id).map fun v => (v, v) := by
  induction x with
  | nil => rfl
  | cons o t ih =>
      cases o with
      | some v =>
          simp only [jointPairs, List.zip_cons_cons, List.filterMap_cons] at *
          simpa [bothSome] using ih
      | none =>
          simp only [jointPairs, List.zip_cons_cons, List.filterMap_cons] at *
          simpa [bothSome] using ih

theorem covN_diag (vals : List ℚ) :
    covN (vals.map fun v => (v, v)) = sqSumN vals := by
  unfold covN sqSumN
  simp [List.map_map, Function.comp_def, List.map_id']

theorem varxN_diag (vals : List ℚ) :
    varxN (vals.map fun v => (v, v)) = sqSumN vals := by
  unfold varxN sqSumN
  simp [List.map_map, Function.comp_def, List.map_id']

theorem varyN_diag (vals : List ℚ) :
    varyN (vals.map fun v => (v, v)) = sqSumN vals := by
  unfold varyN sqSumN
  simp [List.map_map, Function.comp_def, List.map_id']

theorem pearson_diag_pos {vals : List ℚ} (hne : vals ≠ [])
    (hpos : 0 < sqSumN vals) :
    pearson (vals.map fun v => (v, v)) = some ⟨1, 1⟩ := by
  have hmapne : (vals.map fun v => (v, v)) ≠ [] := by
    cases vals with
    | nil => exact absurd rfl hne
    | cons a t => simp
  unfold pearson
  rw [if_neg (by simpa [List.isEmpty_eq_false] using hmapne)]
  rw [varxN_diag, varyN_diag, covN_diag]
  rw [if_neg (by
    push_neg
    exact ⟨ne_of_gt hpos, ne_of_gt hpos⟩)]
  rw [if_pos hpos]
  have hS : sqSumN vals ≠ 0 := ne_of_gt hpos
  rw [div_self (mul_ne_zero hS hS)]

theorem pearson_diag_degenerate {vals : List ℚ} (h : sqSumN vals = 0) :
    pearson (vals.map fun v => (v, v)) = none := by
  cases vals with
  | nil => rfl
  | cons a t =>
      unfold pearson
      rw [if_neg (by simp)]
      rw [if_pos (Or.inl (by rw [varxN_diag]; exact h))]

theorem bothSome_swap (p : Option ℚ × Option ℚ) :
    (bothSome p).map Prod.swap = bothSome p.swap := by
  obtain ⟨p1, p2⟩ := p
  cases p1 <;> cases p2 <;> rfl

theorem jointPairs_comm (x y : List (Option ℚ)) :
    jointPairs y x = (jointPairs x y).map Prod.swap := by
  unfold jointPairs
  rw [List.map_filterMap]
  have h1 : (fun p : Option ℚ × Option ℚ => (bothSome p).map Prod.swap) =
      fun p => bothSome p.swap := by
    funext p
    exact bothSome_swap p
  rw [h1]
  have h2 : (fun p : Option ℚ × Option ℚ => bothSome p.swap) =
      bothSome ∘ Prod.swap := rfl
  rw [h2, ← List.filterMap_map, List.zip_swap]

theorem covN_swap (l : List (ℚ × ℚ)) : covN (l.map Prod.swap) = covN l := by
  unfold covN
  simp only [List.map_map, List.length_map]
  have h1 : (fun p : ℚ × ℚ => p.1 * p.2) ∘ Prod.swap = fun p => p.2 * p.1 := by
    funext p; rfl
  have h2 : ((fun p : ℚ × ℚ => p.1) ∘ Prod.swap) = fun p : ℚ × ℚ => p.2 := rfl
  have h3 : ((fun p : ℚ × ℚ => p.2) ∘ Prod.swap) = fun p : ℚ × ℚ => p.1 := rfl
  rw [h1, h2, h3]
  rw [List.map_congr_left (fun p _ => mul_comm p.2 p.1)]
  ring

theorem varxN_swap (l : List (ℚ × ℚ)) : varxN (l.map Prod.swap) = varyN l := by
  unfold varxN varyN
  simp only [List.map_map, List.length_map]
  rfl

theorem varyN_swap (l : List (ℚ × ℚ)) : varyN (l.map Prod.swap) = varxN l := by
  unfold varxN varyN
  simp only [List.map_map, List.length_map]
  rfl

theorem pearson_swap (l : List (ℚ × ℚ)) :
    pearson (l.map Prod.swap) = pearson l := by
  unfold pearson
  have hemp : (l.map Prod.swap).isEmpty = l.isEmpty := by cases l <;> rfl
  rw [hemp, covN_swap, varxN_swap, varyN_swap]
  by_cases he : l.isEmpty
  · rw [if_pos he, if_pos he]
  · rw [if_neg he, if_neg he]
    by_cases hv : varxN l = 0 ∨ varyN l = 0
    · rw [if_pos (Or.symm hv), if_pos hv]
    · rw [if_neg (fun h => hv (Or.symm h)), if_neg hv]
      rw [mul_comm (varyN l) (varxN l)]

/- ---------------- Claim C8 ---------------- -/

/-- C8 counterexample: a field with 2 valid change observations that are
equal (primary values 1, 2, 4 give two changes of 1) has an absent diagonal
entry, not 1: pandas computes the diagonal like any other pair and a zero
variance makes it NaN. -/
theorem self_correlation_counterexample :
    pctChange [some (1 : ℚ), some 2, some 4] = [none, some 1, some 1] ∧
      2 ≤ (([none, some (1 : ℚ), some 1] : List (Option ℚ)).filterMap id).length ∧
      lookupCol
          (returnsCols ⟨[], [((0 : Nat), some (1 : ℚ), []),
            ((1 : Nat), some (2 : ℚ), []), ((2 : Nat), some (4 : ℚ), [])]⟩)
          "USDCHF_ret" = some (pctChange [some (1 : ℚ), some 2, some 4]) ∧
      (compute_correlations
          ⟨[], [((0 : Nat), some (1 : ℚ), []), ((1 : Nat), some (2 : ℚ), []),
            ((2 : Nat), some (4 : ℚ), [])]⟩ none).matrix
        "USDCHF_ret" "USDCHF_ret" = none := by
  have hev : pctChange [some (1 : ℚ), some 2, some 4] =
      [none, some 1, some 1] := by
    norm_num [pctChange, padFill, padFillAux]
  refine ⟨hev, by decide, rfl, ?_⟩
  show pearson (jointPairs (pctChange [some (1 : ℚ), some 2, some 4])
      (pctChange [some (1 : ℚ), some 2, some 4])) = none
  rw [hev]
  have hjp : jointPairs ([none, some (1 : ℚ), some 1] : List (Option ℚ))
      [none, some 1, some 1] = [(1, 1), (1, 1)] := rfl
  rw [hjp]
  apply pearson_none_of_varxN_zero
  apply varxN_of_const_fst (c := (1 : ℚ))
  decide

/-- C8 amended: the correlation matrix is symmetric for all inputs; the
diagonal entry of a field is exactly 1 when the field has at least 2 valid
change observations that are not all equal (nonzero variance), and absent
when it has fewer than 2 valid change observations or a constant (zero
variance) change series. -/
theorem self_correlation_amended (tbl : Table) (w : Option Nat) :
    (∀ a b : String, (compute_correlations tbl w).matrix a b =
        (compute_correlations tbl w).matrix b a) ∧
      ∀ (a : String) (x : List (Option ℚ)),
        lookupCol (returnsCols tbl) a = some x →
        (2 ≤ (x.filterMap id).length → ¬allEqual (x.filterMap id) →
          (compute_correlations tbl w).matrix a a = some ⟨1, 1⟩) ∧
        ((x.filterMap id).length < 2 ∨ allEqual (x.filterMap id) →
          (compute_correlations tbl w).matrix a a = none) := by
  constructor
  · intro a b
    show corrMatrixOf (returnsCols tbl) a b = corrMatrixOf (returnsCols tbl) b a
    unfold corrMatrixOf
    cases hxa : lookupCol (returnsCols tbl) a with
    | none =>
        cases hyb : lookupCol (returnsCols tbl) b with
        | none => rfl
        | some y => rfl
    | some x =>
        cases hyb : lookupCol (returnsCols tbl) b with
        | none => rfl
        | some y =>
            show pearson (jointPairs x y) = pearson (jointPairs y x)
            rw [jointPairs_comm x y, pearson_swap]
  · intro a x hx
    have hdiag : (compute_correlations tbl w).matrix a a =
        pearson ((x.filterMap id).map fun v => (v, v)) := by
      show corrMatrixOf (returnsCols tbl) a a = _
      unfold corrMatrixOf
      rw [hx]
      show pearson (jointPairs x x) = _
      rw [jointPairs_self]
    constructor
    · intro hlen hne
      rw [hdiag]
      have hvne : x.filterMap id ≠ [] := by
        intro h0
        rw [h0] at hlen
        exact absurd hlen (by decide)
      have hex : ∃ u ∈ x.filterMap id, ∃ v ∈ x.filterMap id, u ≠ v := by
        by_contra hcon
        push_neg at hcon
        exact hne fun u hu v hv => hcon u hu v hv
      rcases hex with ⟨u, hu, v, hv, huv⟩
      exact pearson_diag_pos hvne (sqSumN_pos hu hv huv)
    · intro hdeg
      rw [hdiag]
      rcases hdeg with hlen | hconst
      · have : ((x.filterMap id).map fun v => (v, v)).length < 2 := by
          rw [List.length_map]; exact hlen
        exact pearson_of_short _ this
      · cases hv : x.filterMap id with
        | nil => rfl
        | cons c t =>
            apply pearson_diag_degenerate
            apply sqSumN_of_const (c := c)
            intro u hu
            rw [hv] at hconst
            exact hconst u hu c (List.mem_cons_self c t)

/-- Witness for C8 amended: primary values 1, 2, 6 give the non-constant
change series [1, 2]; the matrix is symmetric and the diagonal is exactly 1. -/
theorem self_correlation_amended_witness :
    pctChange [some (1 : ℚ), some 2, some 6] = [none, some 1, some 2] ∧
      ((compute_correlations
          ⟨[], [((0 : Nat), some (1 : ℚ), []), ((1 : Nat), some (2 : ℚ), []),
            ((2 : Nat), some (6 : ℚ), [])]⟩ none).matrix "USDCHF_ret" "Z" =
        (compute_correlations
          ⟨[], [((0 : Nat), some (1 : ℚ), []), ((1 : Nat), some (2 : ℚ), []),
            ((2 : Nat), some (6 : ℚ), [])]⟩ none).matrix "Z" "USDCHF_ret") ∧
      (compute_correlations
          ⟨[], [((0 : Nat), some (1 : ℚ), []), ((1 : Nat), some (2 : ℚ), []),
            ((2 : Nat), some (6 : ℚ), [])]⟩ none).matrix
        "USDCHF_ret" "USDCHF_ret" = some ⟨1, 1⟩ := by
  have hev : pctChange [some (1 : ℚ), some 2, some 6] =
      [none, some 1, some 2] := by
    norm_num [pctChange, padFill, padFillAux]
  have h := self_correlation_amended
    ⟨[], [((0 : Nat), some (1 : ℚ), []), ((1 : Nat), some (2 : ℚ), []),
      ((2 : Nat), some (6 : ℚ), [])]⟩ none
  refine ⟨hev, h.1 "USDCHF_ret" "Z", ?_⟩
  refine (h.2 "USDCHF_ret" (pctChange [some (1 : ℚ), some 2, some 6]) rfl).1
    ?_ ?_
  · rw [hev]; decide
  · rw [hev]; decide

/- ---------------- Claim C5 ---------------- -/

theorem take_zip_eq {α β : Type} (x : List α) (y : List β) (n : Nat) :
    (x.take n).zip (y.take n) = (x.zip y).take n := by
  induction x generalizing y n with
  | nil => simp
  | cons a t ih =>
      cases y with
      | nil => simp
      | cons b t2 =>
          cases n with
          | zero => rfl
          | succ m => simp [List.zip_cons_cons, ih]

theorem rollingCorrCol_get? (w : Nat) (x y : List (Option ℚ)) (i : Nat)
    (hi : i < x.length) :
    (rollingCorrCol w x y).get? i =
      some
        (if ((((x.zip y).take (i + 1)).drop (i + 1 - w)).filterMap
              bothSome).length < w then none
          else pearson ((((x.zip y).take (i + 1)).drop (i + 1 - w)).filterMap
            bothSome)) := by
  unfold rollingCorrCol
  rw [List.get?_map, List.get?_range hi]
  rfl

theorem jointUpTo_decomp (x y : List (Option ℚ)) (i w : Nat) :
    jointUpTo x y i =
      (((x.zip y).take (i + 1)).take (i + 1 - w)).filterMap bothSome ++
        (((x.zip y).take (i + 1)).drop (i + 1 - w)).filterMap bothSome := by
  unfold jointUpTo jointPairs
  rw [take_zip_eq, ← List.filterMap_append, List.take_append_drop]

/-- C5: when a window w > 0 is given, the rolling table pairs each non-primary
returns column with its trailing-window correlation against the primary
returns; a present entry at row i means at least w joint change-observations
exist at or before i and the value is the Pearson coefficient of the w most
recent joint observations; rows with fewer than w joint observations so far
have no entry. -/
theorem rolling_window_completeness (tbl : Table) (w : Nat) (hw : 0 < w) :
    ((compute_correlations tbl (some w)).rolling =
        ((returnsCols tbl).filter (fun c => !(c.1 == "USDCHF_ret"))).map
          (fun c => (c.1, rollingCorrCol w (pctChange (primaryRaw tbl)) c.2))) ∧
      (∀ (x y : List (Option ℚ)) (i : Nat) (r : CorrVal),
        (rollingCorrCol w x y).get? i = some (some r) →
          w ≤ (jointUpTo x y i).length ∧
            pearson (lastW w (jointUpTo x y i)) = some r) ∧
      ∀ (x y : List (Option ℚ)) (i : Nat), i < x.length →
        (jointUpTo x y i).length < w →
        (rollingCorrCol w x y).get? i = some none := by
  refine ⟨?_, ?_, ?_⟩
  · rw [compute_rolling_some_eq, if_neg (Nat.pos_iff_ne_zero.mp hw)]
  · intro x y i r h
    have hi : i < x.length := by
      by_contra hcon
      push_neg at hcon
      have : (rollingCorrCol w x y).get? i = none := by
        rw [List.get?_eq_none]
        unfold rollingCorrCol
        rw [List.length_map, List.length_range]
        exact hcon
      rw [this] at h
      cases h
    rw [rollingCorrCol_get? w x y i hi] at h
    simp only [Option.some.injEq] at h
    set win := ((x.zip y).take (i + 1)).drop (i + 1 - w) with hwin
    set joint := win.filterMap bothSome with hjoint
    by_cases hlt : joint.length < w
    · rw [if_pos hlt] at h
      cases h
    · rw [if_neg hlt] at h
      push_neg at hlt
      have hwle : win.length ≤ w := by
        rw [hwin, List.length_drop, List.length_take]
        omega
      have hjle : joint.length ≤ win.length := List.length_filterMap_le _ _
      have hjw : joint.length = w := le_antisymm (hjle.trans hwle) hlt
      have hdec := jointUpTo_decomp x y i w
      rw [← hwin, ← hjoint] at hdec
      constructor
      · rw [hdec, List.length_append]
        omega
      · have hlast : lastW w (jointUpTo x y i) = joint := by
          unfold lastW
          rw [hdec, List.length_append, hjw]
          have : ((((x.zip y).take (i + 1)).take (i + 1 - w)).filterMap
              bothSome).length + w - w =
              ((((x.zip y).take (i + 1)).take (i + 1 - w)).filterMap
                bothSome).length := by omega
          rw [this, List.drop_left]
        rw [hlast]
        exact h
  · intro x y i hi hshort
    rw [rollingCorrCol_get? w x y i hi]
    have hdec := jointUpTo_decomp x y i w
    have hle : ((((x.zip y).take (i + 1)).drop (i + 1 - w)).filterMap
        bothSome).length ≤ (jointUpTo x y i).length := by
      rw [hdec, List.length_append]
      omega
    rw [if_pos (lt_of_le_of_lt hle hshort)]

/-- Witness for C5 at window 2 over two fully observed columns. -/
theorem rolling_window_completeness_witness :
    ((0 : Nat) < 2) ∧
      (rollingCorrCol 2 [some (1 : ℚ), some 2, some 4]
          [some (1 : ℚ), some 3, some 4]).get? 2 =
        some (some ⟨1, 1⟩) ∧
      2 ≤ (jointUpTo [some (1 : ℚ), some 2, some 4]
          [some (1 : ℚ), some 3, some 4] 2).length ∧
      pearson (lastW 2 (jointUpTo [some (1 : ℚ), some 2, some 4]
          [some (1 : ℚ), some 3, some 4] 2)) = some ⟨1, 1⟩ := by
  have hentry : (rollingCorrCol 2 [some (1 : ℚ), some 2, some 4]
      [some (1 : ℚ), some 3, some 4]).get? 2 = some (some ⟨1, 1⟩) := by
    have hjp : (((([some (1 : ℚ), some 2, some 4].zip
        [some (1 : ℚ), some 3, some 4]).take 3).drop 1).filterMap bothSome) =
        [((2 : ℚ), (3 : ℚ)), ((4 : ℚ), (4 : ℚ))] := rfl
    rw [rollingCorrCol_get? 2 _ _ 2 (by decide), hjp]
    rw [if_neg (by decide)]
    unfold pearson covN varxN varyN
    rw [if_neg (by decide)]
    norm_num
  have h := (rolling_window_completeness ⟨[], []⟩ 2 (by decide)).2.1
    [some (1 : ℚ), some 2, some 4] [some (1 : ℚ), some 3, some 4] 2 ⟨1, 1⟩
    hentry
  exact ⟨by decide, hentry, h.1, h.2⟩

/- ---------------- Claim C1: support lemmas ---------------- -/

theorem foldl_max_init_le (l : List Nat) (a : Nat) : a ≤ l.foldl max a := by
  induction l generalizing a with
  | nil => exact Nat.le_refl a
  | cons b t ih => exact le_trans (Nat.le_max_left a b) (ih (max a b))

theorem foldl_max_mem_le {l : List Nat} {x : Nat} (a : Nat) (hx : x ∈ l) :
    x ≤ l.foldl max a := by
  induction l generalizing a with
  | nil => cases hx
  | cons b t ih =>
      rcases List.mem_cons.mp hx with h0 | h0
      · subst h0
        exact le_trans (Nat.le_max_right a x) (foldl_max_init_le t (max a x))
      · exact ih (max a b) h0

theorem seriesMax_mem_le {fx : TimeSeries} {p : Nat × ℚ} (hp : p ∈ fx) :
    p.1 ≤ seriesMax fx := by
  unfold seriesMax
  exact foldl_max_mem_le 0 (List.mem_map.mpr ⟨p, hp, rfl⟩)

theorem foldl_minKey_le_init (l : TimeSeries) (a : Nat) :
    l.foldl (fun a q => min a q.1) a ≤ a := by
  induction l generalizing a with
  | nil => exact Nat.le_refl a
  | cons b t ih => exact le_trans (ih (min a b.1)) (Nat.min_le_left a b.1)

theorem foldl_minKey_le_mem {l : TimeSeries} {p : Nat × ℚ} (a : Nat)
    (hp : p ∈ l) : l.foldl (fun a q => min a q.1) a ≤ p.1 := by
  induction l generalizing a with
  | nil => cases hp
  | cons b t ih =>
      rcases List.mem_cons.mp hp with h0 | h0
      · subst h0
        exact le_trans (foldl_minKey_le_init t (min a p.1)) (Nat.min_le_right a p.1)
      · exact ih (min a b.1) h0

theorem seriesMin_le_mem {s : TimeSeries} {p : Nat × ℚ} (hp : p ∈ s) :
    seriesMin s ≤ p.1 := by
  cases s with
  | nil => cases hp
  | cons q rest =>
      unfold seriesMin
      rcases List.mem_cons.mp hp with h0 | h0
      · subst h0
        exact foldl_minKey_le_init rest p.1
      · exact foldl_minKey_le_mem q.1 h0

theorem lastObsAt_no_fire (s : TimeSeries) (t : Nat)
    (h : ∀ p ∈ s, t < p.1) :
    ∀ init : Option ℚ,
      s.foldl (fun acc p => if p.1 ≤ t then some p.2 else acc) init = init := by
  induction s with
  | nil => intro init; rfl
  | cons p rest ih =>
      intro init
      have hp : ¬p.1 ≤ t := Nat.not_le_of_lt (h p (List.mem_cons_self p rest))
      simp only [List.foldl_cons, if_neg hp]
      exact ih (fun q hq => h q (List.mem_cons_of_mem p hq)) init

theorem lastObsAt_none_of_lt_min {s : TimeSeries} {t : Nat}
    (h : ∀ p ∈ s, t < p.1) : lastObsAt s t = none :=
  lastObsAt_no_fire s t h none

theorem ffillAux_cons (init : Option ℚ) (t : Nat) (v : Option ℚ)
    (rest : List (Nat × Option ℚ)) :
    ffillAux init ((t, v) :: rest) =
      (t, v.orElse fun _ => init) :: ffillAux (v.orElse fun _ => init) rest := by
  cases v <;> rfl

theorem colAt_cons (t0 : Nat) (v0 : Option ℚ) (rest : List (Nat × Option ℚ))
    (t : Nat) :
    colAt ((t0, v0) :: rest) t = if t0 = t then v0 else colAt rest t := by
  unfold colAt
  rw [List.find?_cons]
  by_cases h : t0 = t
  · simp [h]
  · have hb : ((t0, v0).1 == t) = false := by simpa using h
    simp only [hb, if_neg h]

theorem ffillAux_keys (init : Option ℚ) (col : List (Nat × Option ℚ)) :
    (ffillAux init col).map (·.1) = col.map (·.1) := by
  induction col generalizing init with
  | nil => rfl
  | cons p rest ih =>
      obtain ⟨t, v⟩ := p
      rw [ffillAux_cons]
      simp only [List.map_cons]
      rw [ih]

theorem colAt_none_of_not_mem {col : List (Nat × Option ℚ)} {t : Nat}
    (h : t ∉ col.map (·.1)) : colAt col t = none := by
  unfold colAt
  have hfind : col.find? (fun p => p.1 == t) = none := by
    rw [List.find?_eq_none]
    intro p hp hbeq
    have hpt : p.1 = t := by simpa using hbeq
    exact h (List.mem_map.mpr ⟨p, hp, hpt⟩)
  rw [hfind]

/-- Value of the forward-filled daily grid at day lo + k: the last value of f
on the days lo..lo+k that is present, else the incoming fill state. -/
theorem colAt_ffill_range (n : Nat) :
    ∀ (lo : Nat) (f : Nat → Option ℚ) (init : Option ℚ) (k : Nat), k < n →
      colAt (ffillAux init ((List.range' lo n).map fun d => (d, f d))) (lo + k) =
        ((List.range' lo (k + 1)).map f).foldl
          (fun a v => v.orElse fun _ => a) init := by
  induction n with
  | zero => intro lo f init k hk; cases hk
  | succ m ih =>
      intro lo f init k hk
      rw [List.range'_succ]
      simp only [List.map_cons]
      rw [ffillAux_cons]
      cases k with
      | zero =>
          rw [colAt_cons, if_pos (by omega)]
          have h1 : List.range' lo (0 + 1) = [lo] := rfl
          rw [h1]
          rfl
      | succ k0 =>
          rw [colAt_cons, if_neg (by omega)]
          have harg : lo + (k0 + 1) = (lo + 1) + k0 := by omega
          rw [harg, ih (lo + 1) f (f lo |>.orElse fun _ => init) k0 (by omega)]
          simp only [List.range'_succ, List.map_cons, List.foldl_cons]

/-- One step of the last-observation scan: going from threshold d to d + 1
picks up exactly an exact observation at d + 1 when there is one. -/
theorem lastObsAt_step (s : TimeSeries) (hs : TSSorted s) (d : Nat) :
    ∀ init : Option ℚ,
      s.foldl (fun acc p => if p.1 ≤ d + 1 then some p.2 else acc) init =
        match lookupExact s (d + 1) with
        | some v => some v
        | none =>
            s.foldl (fun acc p => if p.1 ≤ d then some p.2 else acc) init := by
  induction s with
  | nil => intro init; rfl
  | cons p rest ih =>
      intro init
      obtain ⟨t0, v0⟩ := p
      have hrest : ∀ q ∈ rest, t0 < q.1 := fun q hq =>
        (List.pairwise_cons.mp hs).1 q hq
      have hsrest : TSSorted rest := (List.pairwise_cons.mp hs).2
      by_cases h1 : t0 ≤ d
      · have h2 : t0 ≤ d + 1 := by omega
        have h3 : (t0 == d + 1) = false := by
          simp only [beq_eq_false_iff_ne, ne_eq]
          omega
        simp only [List.foldl_cons, if_pos h1, if_pos h2]
        unfold lookupExact
        rw [List.find?_cons]
        simp only [h3]
        exact ih hsrest (some v0)
      · by_cases h2 : t0 = d + 1
        · subst h2
          have h3 : ∀ q ∈ rest, ¬q.1 ≤ d + 1 := fun q hq => by
            have := hrest q hq; omega
          have h4 : ∀ q ∈ rest, ¬q.1 ≤ d := fun q hq => by
            have := hrest q hq; omega
          simp only [List.foldl_cons, if_pos (Nat.le_refl (d + 1)),
            if_neg (by omega : ¬d + 1 ≤ d)]
          unfold lookupExact
          rw [List.find?_cons]
          simp only [beq_self_eq_true]
          exact lastObsAt_no_fire rest (d + 1)
            (fun q hq => by have := hrest q hq; omega) (some v0)
        · have h3 : ¬t0 ≤ d + 1 := by omega
          have h4 : (t0 == d + 1) = false := by
            simp only [beq_eq_false_iff_ne, ne_eq]
            omega
          simp only [List.foldl_cons, if_neg h1, if_neg h3]
          unfold lookupExact
          rw [List.find?_cons]
          simp only [h4]
          exact ih hsrest init

theorem lastObsAt_succ (s : TimeSeries) (hs : TSSorted s) (d : Nat) :
    lastObsAt s (d + 1) =
      match lookupExact s (d + 1) with
      | some v => some v
      | none => lastObsAt s d :=
  lastObsAt_step s hs d none

theorem lastObsAt_base (s : TimeSeries) (hs : TSSorted s) (lo : Nat)
    (hlo : ∀ p ∈ s, lo ≤ p.1) :
    lastObsAt s lo = lookupExact s lo := by
  induction s with
  | nil => rfl
  | cons p rest ih =>
      obtain ⟨t0, v0⟩ := p
      have hrest : ∀ q ∈ rest, t0 < q.1 := fun q hq =>
        (List.pairwise_cons.mp hs).1 q hq
      have hsrest : TSSorted rest := (List.pairwise_cons.mp hs).2
      by_cases h0 : t0 = lo
      · subst h0
        unfold lastObsAt lookupExact
        simp only [List.foldl_cons, if_pos (Nat.le_refl t0)]
        rw [List.find?_cons]
        simp only [beq_self_eq_true]
        have : ∀ q ∈ rest, t0 < q.1 := hrest
        exact lastObsAt_no_fire rest t0 this (some v0)
      · have h1 : lo < t0 :=
          Nat.lt_of_le_of_ne (hlo (t0, v0) (List.mem_cons_self _ _)) fun h => h0 h.symm
        unfold lastObsAt lookupExact
        simp only [List.foldl_cons, if_neg (by omega : ¬t0 ≤ lo)]
        rw [List.find?_cons]
        have hb : (t0 == lo) = false := by
          simp only [beq_eq_false_iff_ne, ne_eq]
          omega
        simp only [hb]
        exact ih hsrest fun q hq => hlo q (List.mem_cons_of_mem _ hq)

/-- The fold of exact daily lookups over lo..lo+k equals the last observation
at or before lo + k, when lo bounds every observation time from below. -/
theorem foldl_range_eq_lastObsAt (s : TimeSeries) (hs : TSSorted s) (lo : Nat)
    (hlo : ∀ p ∈ s, lo ≤ p.1) (k : Nat) :
    ((List.range' lo (k + 1)).map (lookupExact s)).foldl
        (fun a v => v.orElse fun _ => a) none = lastObsAt s (lo + k) := by
  induction k with
  | zero =>
      have h1 : List.range' lo (0 + 1) = [lo] := rfl
      rw [h1]
      simp only [List.map_cons, List.map_nil, List.foldl_cons, List.foldl_nil]
      rw [Nat.add_zero, lastObsAt_base s hs lo hlo]
      cases lookupExact s lo <;> rfl
  | succ k0 ihk =>
      have hconcat : List.range' lo (k0 + 1 + 1) =
          List.range' lo (k0 + 1) ++ [lo + (k0 + 1)] := by
        rw [List.range'_concat]
        simp
      rw [hconcat, List.map_append, List.foldl_append, ihk]
      simp only [List.map_cons, List.map_nil, List.foldl_cons, List.foldl_nil]
      have harg : lo + (k0 + 1) = (lo + k0) + 1 := by omega
      rw [harg, lastObsAt_succ s hs (lo + k0)]
      cases lookupExact s ((lo + k0) + 1) <;> rfl

/-- The forward-filled daily column evaluated at any primary timestamp within
range is exactly the most recent observation at or before it. -/
theorem colAt_secColumn (fx s : TimeSeries) (hs : TSSorted s) (t : Nat)
    (htmax : t ≤ seriesMax fx) :
    colAt (secColumn fx s) t = lastObsAt s t := by
  by_cases hlt : t < seriesMin s
  · have hkeys : (secColumn fx s).map (·.1) =
        List.range' (seriesMin s) (seriesMax fx + 1 - seriesMin s) := by
      unfold secColumn ffillCol reindexDaily
      rw [ffillAux_keys, List.map_map]
      simp [Function.comp_def]
    have hnot : t ∉ (secColumn fx s).map (·.1) := by
      rw [hkeys, List.mem_range'_1]
      omega
    rw [colAt_none_of_not_mem hnot]
    have hmin : ∀ p ∈ s, t < p.1 := fun p hp =>
      lt_of_lt_of_le hlt (seriesMin_le_mem hp)
    exact (lastObsAt_none_of_lt_min hmin).symm
  · push_neg at hlt
    have hk : t - seriesMin s < seriesMax fx + 1 - seriesMin s := by omega
    have hlo : ∀ p ∈ s, seriesMin s ≤ p.1 := fun p hp => seriesMin_le_mem hp
    have h1 := colAt_ffill_range (seriesMax fx + 1 - seriesMin s) (seriesMin s)
      (lookupExact s) none (t - seriesMin s) hk
    have harg : seriesMin s + (t - seriesMin s) = t := by omega
    rw [harg] at h1
    unfold secColumn ffillCol reindexDaily
    rw [h1]
    have h2 := foldl_range_eq_lastObsAt s hs (seriesMin s) hlo (t - seriesMin s)
    rw [harg] at h2
    exact h2

theorem buildCols_ok_of_ne {fx : TimeSeries} (hfx : fx ≠ [])
    (ms : List (String × TimeSeries)) :
    buildCols fx ms =
      .ok ((ms.filter fun m => !m.2.isEmpty).map
        fun m => (m.1, secColumn fx m.2)) := by
  induction ms with
  | nil => rfl
  | cons m rest ih =>
      obtain ⟨n, s⟩ := m
      by_cases hse : s.isEmpty
      · simp [buildCols, hse, List.filter, ih]
      · have hfe : fx.isEmpty = false := by
          cases fx with
          | nil => exact absurd rfl hfx
          | cons a t => rfl
        simp only [List.filter, hse, Bool.not_false]
        simp [buildCols, hse, hfe, ih]

/- ---------------- Claim C1 ---------------- -/

/-- C1: for a non-empty primary and any secondary kept by alignment (the j-th
non-empty one), every output row carries, for that secondary's field, exactly
the most recent secondary observation at or before the row's timestamp, and
an absent value at timestamps strictly before the secondary's first
observation — no interpolation, no use of later observations. -/
theorem forward_fill_correctness (fx : TimeSeries)
    (ms : List (String × TimeSeries)) (tbl : Table) (j : Nat) (name : String)
    (s : TimeSeries) (hfx : fx ≠ []) (hs : TSSorted s)
    (hok : prepare_data fx ms = .ok tbl)
    (hj : (ms.filter fun m => !m.2.isEmpty).get? j = some (name, s)) :
    ∀ t pv sv, (t, pv, sv) ∈ tbl.rows →
      sv.get? j = some (lastObsAt s t) ∧
        (t < seriesMin s → sv.get? j = some none) := by
  obtain ⟨cols, hb, htbl⟩ := prepare_data_ok_elim hok
  rw [buildCols_ok_of_ne hfx ms] at hb
  have hcols : cols = (ms.filter fun m => !m.2.isEmpty).map
      fun m => (m.1, secColumn fx m.2) := by
    have := hb.symm
    simpa using this
  subst htbl
  intro t pv sv hrow
  have hrow0 := List.mem_of_mem_filter hrow
  rcases List.mem_map.mp hrow0 with ⟨p, hp, hpe⟩
  cases hpe
  have hsv : (cols.map fun c => colAt c.2 p.1).get? j =
      some (colAt (secColumn fx s) p.1) := by
    rw [hcols, List.map_map, List.get?_map, hj]
    rfl
  have htmax : p.1 ≤ seriesMax fx := seriesMax_mem_le hp
  have hcol := colAt_secColumn fx s hs p.1 htmax
  constructor
  · rw [hsv, hcol]
  · intro hltmin
    rw [hsv, hcol]
    have hmin : ∀ q ∈ s, p.1 < q.1 := fun q hq =>
      lt_of_lt_of_le hltmin (seriesMin_le_mem hq)
    rw [lastObsAt_none_of_lt_min hmin]

/-- Witness for C1: primary at days 0, 1, 3 and one secondary observed only
at day 1; day 3 gets the day-1 value forward-filled, day 0 stays absent. -/
theorem forward_fill_correctness_witness :
    prepare_data [((0 : Nat), (1 : ℚ)), ((1 : Nat), (2 : ℚ)), ((3 : Nat), (3 : ℚ))]
        [("M", [((1 : Nat), (10 : ℚ))])] =
      .ok ⟨["M"], [((0 : Nat), some (1 : ℚ), [none]),
        ((1 : Nat), some (2 : ℚ), [some (10 : ℚ)]),
        ((3 : Nat), some (3 : ℚ), [some (10 : ℚ)])]⟩ ∧
      ([some (10 : ℚ)] : List (Option ℚ)).get? 0 =
        some (lastObsAt [((1 : Nat), (10 : ℚ))] 3) ∧
      (([none] : List (Option ℚ)).get? 0 = some none) := by
  have h := forward_fill_correctness
    [((0 : Nat), (1 : ℚ)), ((1 : Nat), (2 : ℚ)), ((3 : Nat), (3 : ℚ))]
    [("M", [((1 : Nat), (10 : ℚ))])]
    ⟨["M"], [((0 : Nat), some (1 : ℚ), [none]),
      ((1 : Nat), some (2 : ℚ), [some (10 : ℚ)]),
      ((3 : Nat), some (3 : ℚ), [some (10 : ℚ)])]⟩
    0 "M" [((1 : Nat), (10 : ℚ))] (by decide) (by decide) (by rfl) (by rfl)
  refine ⟨by rfl, ?_, ?_⟩
  · exact (h 3 (some 3) [some 10] (by decide)).1
  · exact (h 0 (some 1) [none] (by decide)).2 (by decide)

end CurrencyDashboard
